import Mathlib

/-!
Verification of the size-constrained PDF/A conversion pipeline
(`server/routes.ts`): the qpdf wrapper `execQpdf`, the conformance
verifier `verifyPdfA`, the size-fitting partitioner
`findPageRangesForSize`, the parallel conversion orchestrator
`convertToPdfAParallel`, the session progress broadcaster
(`broadcastToSession` / `GET /api/progress/:sessionId`), and the batch
controller of `POST /api/convert`.

External engine invocations (qpdf / ghostscript) are abstracted as pure
oracles: a probe-size function for page-range extraction sizes and a
content oracle for produced files.  Machine integers are modelled as
`Nat` (all sizes and page numbers in the source are non-negative and far
from overflow).
-/

namespace PdfaConverter

/-- `MAX_SIZE_BYTES = 9 * 1024 * 1024` — the 9 MB output ceiling. -/
def MAX_SIZE_BYTES : Nat := 9 * 1024 * 1024

/-! ### String helpers (JavaScript `String.prototype.includes`) -/

/-- Does the pattern occur at the head of the character list? -/
def charListStartsWith : List Char → List Char → Bool
  | _, [] => true
  | [], _ :: _ => false
  | a :: as, b :: bs => a == b && charListStartsWith as bs

/-- Does the pattern occur anywhere in the character list?
(JS `hay.includes(pat)` semantics.) -/
def charListHas : List Char → List Char → Bool
  | [], pat => pat.isEmpty
  | a :: t, pat => charListStartsWith (a :: t) pat || charListHas t pat

/-- JS `hay.includes(pat)`. -/
def strIncludes (hay pat : String) : Bool :=
  charListHas hay.data pat.data

/-! ### Engine Adapter: `execQpdf`

`execQpdf` wraps `execFileAsync("qpdf", args)`.  A process run either
exits zero (with captured stdout/stderr) or non-zero; on non-zero exit
the thrown error object carries the captured `stdout` and `stderr`
(JS truthiness of the captured strings is emptiness). -/

/-- Captured stdout/stderr of one qpdf process run. -/
structure ProcOutput where
  stdout : String
  stderr : String
deriving DecidableEq, Repr

/-- Raw outcome of `execFileAsync("qpdf", ...)`: zero exit with output,
or non-zero exit with the captured output attached to the error. -/
inductive ProcRaw where
  | exitOk (out : ProcOutput)
  | exitErr (captured : ProcOutput)
deriving DecidableEq, Repr

/-- The known "completed with warnings" diagnostic patterns:
`stderr.includes('operation succeeded with warnings') || stderr.includes('WARNING:')`. -/
def qpdfWarningPattern (stderr : String) : Bool :=
  strIncludes stderr "operation succeeded with warnings" || strIncludes stderr "WARNING:"

/-- `execQpdf`: non-zero exits whose captured stdout or stderr is
non-empty and whose stderr matches the warning pattern are treated as
success with the captured output; every other non-zero exit rethrows
the error unchanged. -/
def execQpdf : ProcRaw → Except ProcOutput ProcOutput
  | .exitOk out => .ok out
  | .exitErr e =>
    if (e.stdout != "" || e.stderr != "") && qpdfWarningPattern e.stderr then
      .ok ⟨e.stdout, e.stderr⟩
    else
      .error e

/-! ### Conformance Verifier: `verifyPdfA`

The verifier reads the whole file as latin1 text and applies the two
regexes `/pdfaid:part[>"'\s=]*(\d+)/i` and
`/pdfaid:conformance[>"'\s=]*([A-Za-z]+)/i`.  In both regexes the
separator class contains no digits and no letters, so the match
semantics reduce to: at the leftmost position where the literal matches
case-insensitively, skip the maximal run of separator characters and
capture the maximal non-empty run of capture-class characters.
The file content is abstracted as `Option String` (`none` = the
`fs.readFileSync` call threw, i.e. the file is unreadable). -/

/-- JS `\s` restricted to latin1 code points
(0x09–0x0D, 0x20, 0xA0). -/
def jsSpace (c : Char) : Bool :=
  c == ' ' || c == '\t' || c == '\n' || c == '\r' ||
  c == Char.ofNat 0x0b || c == Char.ofNat 0x0c || c == Char.ofNat 0xa0

/-- The regex separator class `[>"'\s=]`. -/
def sepClass (c : Char) : Bool :=
  c == '>' || c == '"' || c == '\'' || jsSpace c || c == '='

/-- Strip a literal from the input, comparing case-insensitively
(the `/i` flag); returns the rest on success. -/
def stripLitCI : List Char → List Char → Option (List Char)
  | [], rest => some rest
  | _ :: _, [] => none
  | l :: ls, c :: cs => if l.toLower == c.toLower then stripLitCI ls cs else none

/-- Match `<lit>[>"'\s=]*(<capClass>+)` at the current position;
returns the captured run. -/
def matchMarkerAt (lit : List Char) (capClass : Char → Bool) (cs : List Char) :
    Option (List Char) :=
  match stripLitCI lit cs with
  | none => none
  | some rest =>
    let afterSeps := rest.dropWhile fun c => sepClass c
    let captured := afterSeps.takeWhile capClass
    if captured.isEmpty then none else some captured

/-- Leftmost match of the marker pattern (JS `String.prototype.match`
with a non-global regex returns the first match). -/
def scanMarker (lit : List Char) (capClass : Char → Bool) : List Char → Option (List Char)
  | [] => none
  | c :: cs =>
    match matchMarkerAt lit capClass (c :: cs) with
    | some captured => some captured
    | none => scanMarker lit capClass cs

/-- Literal of `/pdfaid:part .../i` (sans capture). -/
def partLit : List Char := "pdfaid:part".data

/-- Literal of `/pdfaid:conformance .../i` (sans capture). -/
def confLit : List Char := "pdfaid:conformance".data

/-- JS `String.prototype.toLowerCase` (character-wise, the inputs here
are ASCII). -/
def strToLower (s : String) : String := String.mk (s.data.map Char.toLower)

/-- Result of `verifyPdfA`: `{ valid, conformance }`. -/
structure VerifyResult where
  valid : Bool
  conformance : Option String
deriving DecidableEq, Repr

/-- `verifyPdfA`: if the part marker is present, `valid = true` and the
label is assembled as `PDF/A-<part><level>`, with the level the
uppercased captured conformance letters (or `"B"` if absent) lowered
via `.toLowerCase()`; otherwise (or when the file is unreadable)
`valid = false` and `conformance = null`. -/
def verifyPdfA (fileContent : Option String) : VerifyResult :=
  match fileContent with
  | none => ⟨false, none⟩
  | some content =>
    match scanMarker partLit Char.isDigit content.data with
    | some partDigits =>
      let conformance :=
        match scanMarker confLit (fun c => c.isAlpha) content.data with
        | some letters => String.mk (letters.map Char.toUpper)
        | none => "B"
      ⟨true, some ("PDF/A-" ++ String.mk partDigits ++ strToLower conformance)⟩
    | none => ⟨false, none⟩

/-! ### Size-Fitting Partitioner: `findPageRangesForSize`

The partitioner works on the already-converted document.  Extraction
probes (`extractSize`, a qpdf page-range extraction measured with
`statSync` and deleted) are abstracted as a pure oracle
`probe start end`.  The float estimate
`estimatedPagesPerChunk = Math.max(1, Math.floor((maxSize * 0.85) / (fileSize / totalPages)))`
is abstracted as a parameter `est` with `1 ≤ est` (guaranteed by the
`Math.max(1, _)`); every theorem below quantifies over all such `est`,
hence covers the concrete float value. -/

/-- An inclusive, 1-indexed page range `{ start, end }`. -/
structure PageRange where
  start : Nat
  «end» : Nat
deriving DecidableEq, Repr

/-- The grow phase: `while (candidateEnd + 1 <= totalPages && probes < 10)`
probe `[currentPage, candidateEnd+1]`; stop at the first probe over
`maxSize`, else advance `candidateEnd`.  `probesLeft` counts the
remaining probes (initially 10). -/
def growLoop (probe : Nat → Nat → Nat) (maxSize currentPage totalPages : Nat) :
    Nat → Nat → Nat
  | 0, candidateEnd => candidateEnd
  | probesLeft + 1, candidateEnd =>
    if candidateEnd + 1 ≤ totalPages then
      if probe currentPage (candidateEnd + 1) ≤ maxSize then
        growLoop probe maxSize currentPage totalPages probesLeft (candidateEnd + 1)
      else candidateEnd
    else candidateEnd

/-- The shrink phase: `while (candidateEnd > currentPage)` decrement
`candidateEnd`, probe `[currentPage, candidateEnd]`, and stop at the
first probe that fits (or at the single page `currentPage`). -/
def shrinkLoop (probe : Nat → Nat → Nat) (maxSize currentPage : Nat) : Nat → Nat
  | 0 => 0
  | candidateEnd + 1 =>
    if currentPage < candidateEnd + 1 then
      if probe currentPage candidateEnd ≤ maxSize then candidateEnd
      else shrinkLoop probe maxSize currentPage candidateEnd
    else candidateEnd + 1

/-- The end page chosen by one iteration's normal flow:
`candidateEnd = Math.min(currentPage + estimatedPagesPerChunk - 1, totalPages)`,
then the grow phase when its probe fits, else the shrink phase. -/
def chooseEnd (probe : Nat → Nat → Nat) (maxSize est totalPages currentPage : Nat) : Nat :=
  if probe currentPage (min (currentPage + est - 1) totalPages) ≤ maxSize then
    growLoop probe maxSize currentPage totalPages 10
      (min (currentPage + est - 1) totalPages)
  else
    shrinkLoop probe maxSize currentPage (min (currentPage + est - 1) totalPages)

/-- The main `while (currentPage <= totalPages)` loop.  `fuel` bounds
the number of iterations (each iteration advances `currentPage` by at
least one, so `totalPages + 1` fuel suffices).  The two leading
source-level conditionals — "estimate reaches the last page" and "full
remainder fits" — are combined into one conjunction: when the first
holds and the second fails the source falls through to the normal flow
with `candidateEnd = totalPages` and re-probes the same range, which a
pure probe oracle renders identical. -/
def rangesLoop (probe : Nat → Nat → Nat) (maxSize est totalPages : Nat) :
    Nat → Nat → List PageRange
  | 0, _ => []
  | fuel + 1, currentPage =>
    if currentPage ≤ totalPages then
      if totalPages ≤ currentPage + est - 1 ∧ probe currentPage totalPages ≤ maxSize then
        [⟨currentPage, totalPages⟩]
      else
        ⟨currentPage, chooseEnd probe maxSize est totalPages currentPage⟩ ::
          rangesLoop probe maxSize est totalPages fuel
            (chooseEnd probe maxSize est totalPages currentPage + 1)
    else []

/-- `findPageRangesForSize`: documents with `totalPages <= 1` yield the
single range `{start: 1, end: 1}`; otherwise the probe loop runs from
page 1. -/
def findPageRangesForSize (probe : Nat → Nat → Nat) (maxSize est totalPages : Nat) :
    List PageRange :=
  if totalPages ≤ 1 then [⟨1, 1⟩]
  else rangesLoop probe maxSize est totalPages (totalPages + 1) 1

/-- The pages covered by a list of ranges, in order:
`[r.start, ..., r.end]` for each range. -/
def spansOf (rs : List PageRange) : List Nat :=
  (rs.map fun r => List.range' r.start (r.«end» + 1 - r.start)).flatten

/-! ### Split branch of the Pipeline Controller

In the `convertedSize > MAX_SIZE_BYTES` branch the controller extracts
each chosen range from the **original upload** and re-converts it; the
resulting part size is therefore a second oracle `pconv` (a ghostscript
re-conversion measured with `statSync`), independent of the probe sizes,
and the produced part file's content is a third oracle `partContent`
fed to `verifyPdfA`. -/

/-- One entry of `partsDetail`: `{ name, size, verified, conformance }`. -/
structure PartVerification where
  name : String
  size : Nat
  verified : Bool
  conformance : Option String
deriving DecidableEq, Repr

/-- One `ConvertedFile` result. -/
structure ConvertedFile where
  originalName : String
  outputName : String
  outputSize : Nat
  wasSplit : Bool
  parts : Option Nat
  verified : Bool
  conformance : Option String
  partsDetail : Option (List PartVerification)
deriving DecidableEq, Repr

/-- The per-part loop body of the split branch: extract the range from
the original, re-convert, measure, verify. -/
def mkPartsDetail (outputBaseName : String) (pconv : PageRange → Nat)
    (partContent : PageRange → Option String) (ranges : List PageRange) :
    List PartVerification :=
  ranges.mapIdx fun i r =>
    { name := outputBaseName ++ "_parte" ++ toString (i + 1) ++ ".pdf"
      size := pconv r
      verified := (verifyPdfA (partContent r)).valid
      conformance := (verifyPdfA (partContent r)).conformance }

/-- The per-part progress line chosen by the controller: the explicit
over-ceiling warning when `partSize > MAX_SIZE_BYTES`, else the normal
per-part line. -/
inductive PartLogKind where
  | oversizeWarning
  | normal
deriving DecidableEq, Repr

/-- `if (partSize > MAX_SIZE_BYTES)` — which progress line is sent for
one part. -/
def partLogKind (maxSize : Nat) (p : PartVerification) : PartLogKind :=
  if maxSize < p.size then .oversizeWarning else .normal

/-- The split-result aggregation (`results.push({...})` of the split
branch): sum of part sizes, part count, all-verified flag, and the
first part's conformance when all parts verified.  `partsDetail` is
non-empty on every call (one entry per range, and the partitioner never
returns an empty list). -/
def aggregateSplit (originalName outputBaseName : String)
    (partsDetail : List PartVerification) : ConvertedFile :=
  let allVerified := partsDetail.all fun p => p.verified
  { originalName := originalName
    outputName := outputBaseName
    outputSize := partsDetail.foldl (fun acc f => acc + f.size) 0
    wasSplit := true
    parts := some partsDetail.length
    verified := allVerified
    conformance := if allVerified then partsDetail.head?.elim none fun p => p.conformance
                   else none
    partsDetail := some partsDetail }

/-- The non-split branch: rename the converted file and verify it once. -/
def singleResult (originalName outputFileName : String) (convertedSize : Nat)
    (fullContent : Option String) : ConvertedFile :=
  let verification := verifyPdfA fullContent
  { originalName := originalName
    outputName := outputFileName
    outputSize := convertedSize
    wasSplit := false
    parts := none
    verified := verification.valid
    conformance := verification.conformance
    partsDetail := none }

/-- Per-file body of the `POST /api/convert` loop after the whole-file
conversion: split when `convertedSize > MAX_SIZE_BYTES`, else keep the
single output. -/
def processOneFile (originalName outputBaseName : String)
    (convertedSize totalPages est : Nat) (probe : Nat → Nat → Nat)
    (pconv : PageRange → Nat) (partContent : PageRange → Option String)
    (fullContent : Option String) : ConvertedFile :=
  if MAX_SIZE_BYTES < convertedSize then
    let pageRanges := findPageRangesForSize probe MAX_SIZE_BYTES est totalPages
    aggregateSplit originalName outputBaseName
      (mkPartsDetail outputBaseName pconv partContent pageRanges)
  else
    singleResult originalName (outputBaseName ++ ".pdf") convertedSize fullContent

/-! ### Parallel Conversion Orchestrator: `convertToPdfAParallel`

The orchestrator is modelled as the list of engine actions it performs.
Directory/extension juggling on temporary names
(`path.join(tmpDir, ...)`, `path.basename(outputPath, '.pdf')`) is
collapsed: chunk paths are derived from the output path, preserving
distinctness and the source's naming scheme. -/

/-- `NUM_WORKERS = 8` — parallel ghostscript processes. -/
def NUM_WORKERS : Nat := 8

/-- `MIN_PAGES_FOR_PARALLEL = 16` — minimum pages to parallelize. -/
def MIN_PAGES_FOR_PARALLEL : Nat := 16

/-- One worker chunk: page span plus its temporary extracted and
converted paths. -/
structure ConversionChunk where
  start : Nat
  «end» : Nat
  chunkPath : String
  convertedPath : String
deriving DecidableEq, Repr

/-- The chunk-creation loop `for (let i = 0; i < NUM_WORKERS; i++)`
with `if (start > totalPages) break`.  `workersLeft` is the remaining
iteration count (initially `NUM_WORKERS`). -/
def mkChunksAux (baseName : String) (pagesPerChunk totalPages : Nat) :
    Nat → Nat → List ConversionChunk
  | 0, _ => []
  | workersLeft + 1, i =>
    let start := i * pagesPerChunk + 1
    if totalPages < start then []
    else
      { start := start
        «end» := min ((i + 1) * pagesPerChunk) totalPages
        chunkPath := baseName ++ "_chunk" ++ toString (i + 1) ++ ".pdf"
        convertedPath := baseName ++ "_chunk" ++ toString (i + 1) ++ "_pdfa.pdf" } ::
      mkChunksAux baseName pagesPerChunk totalPages workersLeft (i + 1)

/-- The chunks of one document:
`pagesPerChunk = Math.ceil(totalPages / NUM_WORKERS)`. -/
def mkChunks (baseName : String) (totalPages : Nat) : List ConversionChunk :=
  mkChunksAux baseName ((totalPages + NUM_WORKERS - 1) / NUM_WORKERS) totalPages
    NUM_WORKERS 0

/-- One engine action of the orchestrator. -/
inductive ConvAction where
  | gsConvert (input output : String)
  | qpdfExtract (start «end» : Nat) (output : String)
  | qpdfMerge (inputs : List String) (output : String)
  | rename (src dst : String)
deriving DecidableEq, Repr

/-- Step 3 of the orchestrator: one chunk is renamed into place;
several chunks are merged (in chunk-list order) and the merged
intermediate is re-converted once to the final output. -/
def mergeStep (chunks : List ConversionChunk) (outputPath : String) : List ConvAction :=
  match chunks with
  | [c] => [.rename c.convertedPath outputPath]
  | cs =>
    [.qpdfMerge (cs.map fun c => c.convertedPath) (outputPath ++ ".merged.pdf"),
     .gsConvert (outputPath ++ ".merged.pdf") outputPath]

/-- `convertToPdfAParallel` as its action trace: small documents are
converted single-pass; otherwise all chunks are extracted, all chunks
are converted, then `mergeStep` finishes. -/
def convertToPdfAParallel (inputPath outputPath : String) (totalPages : Nat) :
    List ConvAction :=
  if totalPages < MIN_PAGES_FOR_PARALLEL then
    [.gsConvert inputPath outputPath]
  else
    let chunks := mkChunks outputPath totalPages
    (chunks.map fun c => .qpdfExtract c.start c.«end» c.chunkPath) ++
    (chunks.map fun c => .gsConvert c.chunkPath c.convertedPath) ++
    mergeStep chunks outputPath

/-! ### Session Progress Broadcaster

`progressStore` maps a session id to
`{ logs, clients, done }`; we model the lifecycle of one session
(entries for distinct ids never interact).  Observers are numbered; the
`received` map records every event written to each observer connection
(history replay and live fan-out alike). -/

/-- `resultData` pushed with the final result event. -/
structure ResultData where
  sessionId : String
  files : List ConvertedFile
  totalSize : Nat
deriving DecidableEq, Repr

/-- A progress event: `{type:"log"|"result"|"error", ...}`. -/
inductive SessionEvent where
  | log (message : String)
  | result (data : ResultData)
  | error (message : String)
deriving DecidableEq, Repr

/-- One session's entry in `progressStore`. -/
structure SessionProgress where
  logs : List SessionEvent
  clients : List Nat
  done : Bool

/-- The broadcaster state for one session: the (possibly purged) store
entry plus what every observer connection has been sent so far. -/
structure BroadcastState where
  session : Option SessionProgress
  received : Nat → List SessionEvent

/-- The operations touching one session. -/
inductive BroadcastOp where
  | publish (e : SessionEvent)
  | subscribe (c : Nat)
  | disconnect (c : Nat)
  | markDone
  | purge
deriving Repr

/-- One step of the broadcaster.
`publish` (`broadcastToSession`) appends to the log, then writes the
event to every currently attached client; a missing session is a no-op.
`subscribe` (`GET /api/progress/:sessionId`) replays the whole log to
the new connection, then attaches it unless the session is done (a done
session replays and closes); a missing session is a 404.
`disconnect` (the `close` handler) removes the connection from the
fan-out set.  `markDone` sets the completion flag and `purge` is the
delayed `progressStore.delete`. -/
def broadcastStep (s : BroadcastState) : BroadcastOp → BroadcastState
  | .publish e =>
    match s.session with
    | none => s
    | some sp =>
      { session := some { sp with logs := sp.logs ++ [e] }
        received := fun c => if c ∈ sp.clients then s.received c ++ [e]
                             else s.received c }
  | .subscribe c =>
    match s.session with
    | none => s
    | some sp =>
      if sp.done then
        { s with received := fun c' => if c' = c then sp.logs else s.received c' }
      else
        { session := some { sp with clients := sp.clients ++ [c] }
          received := fun c' => if c' = c then sp.logs else s.received c' }
  | .disconnect c =>
    match s.session with
    | none => s
    | some sp => { s with session := some { sp with clients := sp.clients.filter (· ≠ c) } }
  | .markDone =>
    match s.session with
    | none => s
    | some sp => { s with session := some { sp with done := true } }
  | .purge => { s with session := none }

/-- The state reached from a freshly created session
(`progressStore.set(sessionId, { logs: [], clients: new Set(), done: false })`)
after a sequence of operations. -/
def broadcastRun (ops : List BroadcastOp) : BroadcastState :=
  ops.foldl broadcastStep
    { session := some { logs := [], clients := [], done := false }
      received := fun _ => [] }

/-! ### Batch controller of `POST /api/convert`

Files are processed strictly in order inside one `try`; the per-file
work (conversion, optional split, verification) either yields a
`ConvertedFile` after some progress lines, or throws after some
progress lines.  The `catch` removes the whole session directory,
unlinks every uploaded original, and publishes one error event.  On
success the controller publishes the completion line and one result
event. -/

/-- The outcome of processing one file of the batch: the progress lines
it publishes, then either its `ConvertedFile` or the thrown error's
message. -/
inductive FileOutcome where
  | ok (logs : List String) (result : ConvertedFile)
  | fail (logs : List String) (errMessage : String)
deriving DecidableEq, Repr

/-- What one batch run leaves behind. -/
structure BatchRun where
  events : List SessionEvent
  results : List ConvertedFile
  sessionDirCleaned : Bool
  originalsDeleted : Bool
  markedDone : Bool
deriving DecidableEq, Repr

/-- The `for` loop plus `catch`: the first failing file aborts the rest
of the batch, cleans the session directory and all originals, and
publishes exactly the error event; if every file succeeds the
completion line and the result event are published and the session
directory is kept for download. -/
def runBatchAux (sessionId : String) (acc : List SessionEvent)
    (results : List ConvertedFile) : List FileOutcome → BatchRun
  | [] =>
    { events := acc ++ [.log "Elaborazione completata. File pronti per il download.",
        .result ⟨sessionId, results, results.foldl (fun a r => a + r.outputSize) 0⟩]
      results := results
      sessionDirCleaned := false
      originalsDeleted := true
      markedDone := true }
  | .ok logs r :: rest =>
    runBatchAux sessionId (acc ++ logs.map SessionEvent.log) (results ++ [r]) rest
  | .fail logs msg :: _rest =>
    { events := acc ++ logs.map SessionEvent.log ++ [.error msg]
      results := results
      sessionDirCleaned := true
      originalsDeleted := true
      markedDone := true }

/-- A whole batch, started with empty log and result list. -/
def runBatch (sessionId : String) (outcomes : List FileOutcome) : BatchRun :=
  runBatchAux sessionId [] [] outcomes

/-- Discriminators for counting terminal events. -/
def isErrorEvent : SessionEvent → Bool
  | .error _ => true
  | _ => false

/-- Is this event the result event? -/
def isResultEvent : SessionEvent → Bool
  | .result _ => true
  | _ => false

/-- Did this file's processing throw? -/
def isFailOutcome : FileOutcome → Bool
  | .fail _ _ => true
  | _ => false

/-! ### Concrete oracles for counterexamples and witnesses -/

/-- Probe oracle whose extraction size is the page count of the range. -/
def probeLin : Nat → Nat → Nat := fun s e => e - s + 1

/-- Probe oracle for a 3-page converted document: `[1,2]` measures
9000000 bytes, `[1,3]` measures 15000000 bytes, anything else
4000000 bytes. -/
def probeC1 : Nat → Nat → Nat := fun s e =>
  if s == 1 && e == 2 then 9000000
  else if s == 1 && e == 3 then 15000000
  else 4000000

/-- Re-conversion size oracle: the part extracted from the original at
page 1 re-converts to 12000000 bytes, any other part to 100 bytes. -/
def pconvC1 : PageRange → Nat := fun r => if r.start == 1 then 12000000 else 100

/-- Probe oracle for witnesses: each page measures 3 bytes. -/
def probeW : Nat → Nat → Nat := fun s e => (e - s + 1) * 3

/-- A concrete `ConvertedFile` for batch examples. -/
def dummyFile : ConvertedFile :=
  ⟨"a.pdf", "a.pdf", 100, false, none, true, some "PDF/A-1b", none⟩

/-- Only log events (no terminal result/error) in a list. -/
def onlyLogs (evs : List SessionEvent) : Prop :=
  ∀ ev ∈ evs, isErrorEvent ev = false ∧ isResultEvent ev = false

/-- Every attached observer connection has been sent exactly the
session log, in order. -/
def ObserversInSync (s : BroadcastState) : Prop :=
  ∀ sp, s.session = some sp → ∀ c ∈ sp.clients, s.received c = sp.logs

/-! ## Theorems -/

/-! ### Engine Adapter (claim C7) -/

/-- The warning pattern never matches empty diagnostics. -/
lemma qpdfWarningPattern_empty : qpdfWarningPattern "" = false := by decide

/-- A matching pattern forces non-empty stderr. -/
lemma qpdfWarningPattern_ne_empty {s : String} (h : qpdfWarningPattern s = true) :
    (s != "") = true := by
  rcases eq_or_ne s "" with rfl | hne
  · rw [qpdfWarningPattern_empty] at h
    exact absurd h (by simp)
  · simpa [bne_iff_ne] using hne

/-- Claim C7: a qpdf invocation that exits non-zero is treated as a
success (with its captured output used as-is) if and only if the
captured stderr matches the completed-with-warnings pattern; every
other non-zero exit raises the error object unchanged.  Zero exits are
always successes. -/
theorem execQpdf_warning_policy :
    ∀ e : ProcOutput,
      execQpdf (.exitErr e) =
        (if qpdfWarningPattern e.stderr then Except.ok ⟨e.stdout, e.stderr⟩
         else Except.error e) ∧
      ∀ out : ProcOutput, execQpdf (.exitOk out) = .ok out := by
  intro e
  refine ⟨?_, fun out => rfl⟩
  by_cases h : qpdfWarningPattern e.stderr
  · have hne := qpdfWarningPattern_ne_empty h
    simp [execQpdf, h, hne]
  · simp [execQpdf, h]

/-! ### Conformance Verifier (claim C8) -/

/-- The marker pattern never matches an empty input. -/
lemma matchMarkerAt_nil (lit : List Char) (cap : Char → Bool) :
    matchMarkerAt lit cap [] = none := by
  cases lit <;> rfl

/-- The leftmost scan succeeds exactly when the marker pattern matches
at some position of the content. -/
lemma scanMarker_isSome_iff (lit : List Char) (cap : Char → Bool) :
    ∀ cs : List Char, (scanMarker lit cap cs).isSome = true ↔
      ∃ i, (matchMarkerAt lit cap (cs.drop i)).isSome = true := by
  intro cs
  induction cs with
  | nil => simp [scanMarker, matchMarkerAt_nil]
  | cons c cs ih =>
    cases h : matchMarkerAt lit cap (c :: cs) with
    | some v =>
      simp only [scanMarker, h]
      exact ⟨fun _ => ⟨0, by simp [h]⟩, fun _ => rfl⟩
    | none =>
      simp only [scanMarker, h]
      constructor
      · intro hs
        obtain ⟨j, hj⟩ := ih.mp hs
        exact ⟨j + 1, by simpa using hj⟩
      · rintro ⟨i, hi⟩
        cases i with
        | zero => simp [h] at hi
        | succ j => exact ih.mpr ⟨j, by simpa using hi⟩

/-- Claim C8: the verifier reports `valid = true` exactly when a part
marker is present in the (readable) content; an unreadable file or a
content without part marker yields `valid = false, conformance = null`;
when the part marker is present the label is
`PDF/A-<part><level>` where the level is the lowercased captured
conformance letters, defaulting to `b` when the conformance marker is
absent.  The verifier is a total pure function of the content (it never
throws and never writes). -/
theorem verifyPdfA_spec :
    ∀ fc : Option String,
      ((verifyPdfA fc).valid = true ↔ ∃ c, fc = some c ∧
        ∃ i, (matchMarkerAt partLit Char.isDigit (c.data.drop i)).isSome = true) ∧
      verifyPdfA none = ⟨false, none⟩ ∧
      ((verifyPdfA fc).valid = false → (verifyPdfA fc).conformance = none) ∧
      (∀ c d, fc = some c → scanMarker partLit Char.isDigit c.data = some d →
        (scanMarker confLit (fun x => x.isAlpha) c.data = none →
          (verifyPdfA fc).conformance = some ("PDF/A-" ++ String.mk d ++ "b")) ∧
        (∀ ls, scanMarker confLit (fun x => x.isAlpha) c.data = some ls →
          (verifyPdfA fc).conformance =
            some ("PDF/A-" ++ String.mk d ++ strToLower (String.mk (ls.map Char.toUpper))))) := by
  intro fc
  cases fc with
  | none =>
    refine ⟨by simp [verifyPdfA], rfl, fun _ => rfl, ?_⟩
    intro c d hc
    exact absurd hc (by simp)
  | some content =>
    cases hp : scanMarker partLit Char.isDigit content.data with
    | none =>
      refine ⟨?_, rfl, fun _ => by simp [verifyPdfA, hp], ?_⟩
      · constructor
        · intro hv
          simp [verifyPdfA, hp] at hv
        · rintro ⟨c, hc, hi⟩
          obtain rfl : content = c := by simpa using hc
          have := (scanMarker_isSome_iff partLit Char.isDigit content.data).mpr hi
          simp [hp] at this
      · intro c d hc hd
        obtain rfl : content = c := by simpa using hc
        simp [hp] at hd
    | some d =>
      have hvalid : (verifyPdfA (some content)).valid = true := by
        cases hc : scanMarker confLit (fun x => x.isAlpha) content.data <;>
          simp [verifyPdfA, hp, hc]
      refine ⟨?_, rfl, ?_, ?_⟩
      · constructor
        · intro _
          refine ⟨content, rfl, ?_⟩
          have : (scanMarker partLit Char.isDigit content.data).isSome = true := by
            simp [hp]
          exact (scanMarker_isSome_iff partLit Char.isDigit content.data).mp this
        · intro _
          exact hvalid
      · intro hfalse
        rw [hvalid] at hfalse
        exact absurd hfalse (by simp)
      · intro c d' hc hd'
        obtain rfl : content = c := by simpa using hc
        rw [hp] at hd'
        obtain rfl : d = d' := by simpa using hd'
        constructor
        · intro hcnone
          simp [verifyPdfA, hp, hcnone]
          have : strToLower "B" = "b" := by decide
          rw [this]
        · intro ls hls
          simp [verifyPdfA, hp, hls]

/-- Witness for C8: a content holding `pdfaid:part=2` and
`pdfaid:conformance=A` verifies as compliant `PDF/A-2a`. -/
theorem verifyPdfA_spec_witness :
    (verifyPdfA (some "pdfaid:part=2 pdfaid:conformance=A")).valid = true ∧
    (verifyPdfA (some "pdfaid:part=2 pdfaid:conformance=A")).conformance =
      some "PDF/A-2a" := by
  have h := verifyPdfA_spec (some "pdfaid:part=2 pdfaid:conformance=A")
  have hp : scanMarker partLit Char.isDigit
      ("pdfaid:part=2 pdfaid:conformance=A").data = some ['2'] := by decide
  have hc : scanMarker confLit (fun x => x.isAlpha)
      ("pdfaid:part=2 pdfaid:conformance=A").data = some ['A'] := by decide
  have hlabel := ((h.2.2.2 _ ['2'] rfl hp).2 ['A'] hc)
  refine ⟨?_, ?_⟩
  · exact h.1.mpr ⟨_, rfl, (scanMarker_isSome_iff _ _ _).mp (by rw [hp]; rfl)⟩
  · rw [hlabel]
    decide

/-! ### Session Progress Broadcaster (claim C3) -/

/-- Every broadcaster operation preserves the synchronisation of
attached observers with the session log. -/
lemma broadcastStep_sync {s : BroadcastState} (hs : ObserversInSync s)
    (op : BroadcastOp) : ObserversInSync (broadcastStep s op) := by
  intro sp' hsp' c hc
  cases op with
  | publish e =>
    cases h : s.session with
    | none =>
      simp only [broadcastStep, h] at hsp'
      simp [h] at hsp'
    | some sp =>
      simp only [broadcastStep, h, Option.some.injEq] at hsp'
      subst hsp'
      simp only [broadcastStep, h]
      simp only at hc
      simp [hc, hs sp h c hc]
  | subscribe c0 =>
    cases h : s.session with
    | none =>
      simp only [broadcastStep, h] at hsp'
      simp [h] at hsp'
    | some sp =>
      by_cases hd : sp.done = true
      · simp only [broadcastStep, h, hd, if_true] at hsp'
        obtain rfl : sp = sp' := Option.some.inj hsp'
        simp only [broadcastStep, h, hd, if_true]
        by_cases hcc : c = c0
        · simp [hcc]
        · simp [hcc, hs sp h c hc]
      · simp only [Bool.not_eq_true] at hd
        simp only [broadcastStep, h, hd, Bool.false_eq_true, if_false,
          Option.some.injEq] at hsp'
        subst hsp'
        simp only [broadcastStep, h, hd, Bool.false_eq_true, if_false]
        simp only at hc
        by_cases hcc : c = c0
        · simp [hcc]
        · have hc' : c ∈ sp.clients := by
            rcases List.mem_append.mp hc with h1 | h1
            · exact h1
            · exact absurd (List.mem_singleton.mp h1) hcc
          simp [hcc, hs sp h c hc']
  | disconnect c0 =>
    cases h : s.session with
    | none =>
      simp only [broadcastStep, h] at hsp'
      simp [h] at hsp'
    | some sp =>
      simp only [broadcastStep, h, Option.some.injEq] at hsp'
      subst hsp'
      simp only [broadcastStep, h]
      simp only at hc
      exact hs sp h c (List.mem_of_mem_filter hc)
  | markDone =>
    cases h : s.session with
    | none =>
      simp only [broadcastStep, h] at hsp'
      simp [h] at hsp'
    | some sp =>
      simp only [broadcastStep, h, Option.some.injEq] at hsp'
      subst hsp'
      simp only [broadcastStep, h]
      exact hs sp h c hc
  | purge =>
    simp [broadcastStep] at hsp'

/-- Folding broadcaster steps preserves observer synchronisation. -/
lemma foldl_broadcastStep_sync :
    ∀ (ops : List BroadcastOp) (s : BroadcastState), ObserversInSync s →
      ObserversInSync (ops.foldl broadcastStep s) := by
  intro ops
  induction ops with
  | nil => intro s h; simpa using h
  | cons op ops ih =>
    intro s h
    simpa using ih _ (broadcastStep_sync h op)

/-- After any operation sequence on a fresh session, every attached
observer has been sent exactly the session log. -/
lemma broadcastRun_sync (ops : List BroadcastOp) : ObserversInSync (broadcastRun ops) := by
  refine foldl_broadcastStep_sync ops _ ?_
  intro sp hsp c hc
  simp only [Option.some.injEq] at hsp
  subst hsp
  simp at hc

/-- Claim C3: for any session and any operation sequence, every
observer still attached has been delivered exactly the session's log in
log order, and an observer subscribing afterwards (e.g. after
completion) is delivered exactly the same log as pure replay; hence the
before-completion live sequence and the after-completion replay
coincide. -/
theorem broadcast_replay_eq_live :
    ∀ (ops : List BroadcastOp) (sp : SessionProgress),
      (broadcastRun ops).session = some sp →
      (∀ c ∈ sp.clients, (broadcastRun ops).received c = sp.logs) ∧
      (∀ c' : Nat, (broadcastRun (ops ++ [.subscribe c'])).received c' = sp.logs) := by
  intro ops sp hsp
  refine ⟨fun c hc => broadcastRun_sync ops sp hsp c hc, fun c' => ?_⟩
  have hstep : broadcastRun (ops ++ [.subscribe c']) =
      broadcastStep (broadcastRun ops) (.subscribe c') := by
    simp [broadcastRun, List.foldl_append]
  rw [hstep]
  by_cases hd : sp.done <;>
    simp [broadcastStep, hsp, hd]

/-- Witness for C3: an observer attached from the start and an observer
replayed after completion both see `[log "a", log "b"]`. -/
theorem broadcast_replay_eq_live_witness :
    (broadcastRun [.subscribe 0, .publish (.log "a"), .publish (.log "b"),
        .markDone]).received 0 = [.log "a", .log "b"] ∧
    (broadcastRun ([.subscribe 0, .publish (.log "a"), .publish (.log "b"),
        .markDone] ++ [.subscribe 1])).received 1 = [.log "a", .log "b"] := by
  have h := broadcast_replay_eq_live
    [.subscribe 0, .publish (.log "a"), .publish (.log "b"), .markDone]
    { logs := [.log "a", .log "b"], clients := [0], done := true } rfl
  exact ⟨h.1 0 (by simp), h.2 1⟩

/-! ### Batch controller error handling (claim C4) -/

/-- Log lines mapped into the event log are neither error nor result
events. -/
lemma onlyLogs_map_log (ls : List String) : onlyLogs (ls.map SessionEvent.log) := by
  intro ev hev
  obtain ⟨m, _, rfl⟩ := List.mem_map.mp hev
  exact ⟨rfl, rfl⟩

/-- `onlyLogs` is closed under append. -/
lemma onlyLogs_append {a b : List SessionEvent} (ha : onlyLogs a) (hb : onlyLogs b) :
    onlyLogs (a ++ b) := by
  intro ev hev
  rcases List.mem_append.mp hev with h | h
  · exact ha ev h
  · exact hb ev h

/-- In the batch loop, error and result events are never both
published. -/
lemma runBatchAux_exclusive (sessionId : String) :
    ∀ (outcomes : List FileOutcome) (acc : List SessionEvent)
      (results : List ConvertedFile), onlyLogs acc →
      ¬(((runBatchAux sessionId acc results outcomes).events.any isErrorEvent = true) ∧
        ((runBatchAux sessionId acc results outcomes).events.any isResultEvent = true)) := by
  intro outcomes
  induction outcomes with
  | nil =>
    intro acc results hacc ⟨herr, _⟩
    rw [runBatchAux] at herr
    simp only [List.any_append, List.any_cons, List.any_nil, Bool.or_eq_true,
      List.any_eq_true] at herr
    rcases herr with ⟨ev, hev, hision⟩ | h
    · exact absurd hision (by simp [(hacc ev hev).1])
    · simp [isErrorEvent] at h
  | cons o rest ih =>
    intro acc results hacc
    cases o with
    | ok logs r =>
      exact ih (acc ++ logs.map SessionEvent.log) (results ++ [r])
        (onlyLogs_append hacc (onlyLogs_map_log logs))
    | fail logs msg =>
      intro ⟨_, hres⟩
      rw [runBatchAux] at hres
      simp only [List.any_append, Bool.or_eq_true, List.any_eq_true] at hres
      rcases hres with (⟨ev, hev, h⟩ | ⟨ev, hev, h⟩) | h
      · exact absurd h (by simp [(hacc ev hev).2])
      · exact absurd h (by simp [(onlyLogs_map_log logs ev hev).2])
      · simp [isResultEvent] at h

/-- A prefix of non-failing outcomes only accumulates their log lines
and results. -/
lemma runBatchAux_ok_prefix (sessionId : String) :
    ∀ (pre : List FileOutcome), (∀ o ∈ pre, isFailOutcome o = false) →
      ∀ (tail : List FileOutcome) (acc : List SessionEvent)
        (results : List ConvertedFile),
      ∃ (acc' : List SessionEvent) (results' : List ConvertedFile),
        onlyLogs acc' ∧
        runBatchAux sessionId acc results (pre ++ tail) =
          runBatchAux sessionId (acc ++ acc') (results ++ results') tail := by
  intro pre
  induction pre with
  | nil =>
    intro _ tail acc results
    exact ⟨[], [], by intro ev h; simp at h, by simp⟩
  | cons o rest ih =>
    intro hpre tail acc results
    cases o with
    | ok logs r =>
      obtain ⟨acc', results', honly, heq⟩ :=
        ih (fun o ho => hpre o (List.mem_cons_of_mem _ ho)) tail
          (acc ++ logs.map SessionEvent.log) (results ++ [r])
      refine ⟨logs.map SessionEvent.log ++ acc', [r] ++ results',
        onlyLogs_append (onlyLogs_map_log logs) honly, ?_⟩
      rw [List.cons_append, runBatchAux, heq]
      simp
    | fail logs msg =>
      have := hpre (.fail logs msg) (List.mem_cons_self _ _)
      simp [isFailOutcome] at this

/-- Everything after the first failing file is ignored. -/
lemma runBatchAux_fail_abort (sessionId : String) (logs : List String) (msg : String) :
    ∀ (pre : List FileOutcome), (∀ o ∈ pre, isFailOutcome o = false) →
      ∀ (acc : List SessionEvent) (results : List ConvertedFile)
        (post post' : List FileOutcome),
      runBatchAux sessionId acc results (pre ++ .fail logs msg :: post) =
        runBatchAux sessionId acc results (pre ++ .fail logs msg :: post') := by
  intro pre
  induction pre with
  | nil => intro _ acc results post post'; rfl
  | cons o rest ih =>
    intro hpre acc results post post'
    cases o with
    | ok l r =>
      rw [List.cons_append, runBatchAux, List.cons_append, runBatchAux]
      exact ih (fun o ho => hpre o (List.mem_cons_of_mem _ ho)) _ _ post post'
    | fail l m =>
      have := hpre (.fail l m) (List.mem_cons_self _ _)
      simp [isFailOutcome] at this

/-- Claim C4: if any file of the batch fails, the controller aborts the
remaining files (the outcome is independent of everything after the
failing file), removes the session directory and every uploaded
original, and publishes exactly one error event and no result event;
error and result events are mutually exclusive for every batch. -/
theorem batch_failure_cleanup :
    ∀ (sessionId : String) (pre : List FileOutcome) (logs : List String)
      (msg : String) (post : List FileOutcome),
      (∀ o ∈ pre, isFailOutcome o = false) →
      (((runBatch sessionId (pre ++ .fail logs msg :: post)).events.filter
          isErrorEvent).length = 1 ∧
       ((runBatch sessionId (pre ++ .fail logs msg :: post)).events.filter
          isResultEvent).length = 0 ∧
       (runBatch sessionId (pre ++ .fail logs msg :: post)).sessionDirCleaned = true ∧
       (runBatch sessionId (pre ++ .fail logs msg :: post)).originalsDeleted = true ∧
       (∀ post', runBatch sessionId (pre ++ .fail logs msg :: post') =
          runBatch sessionId (pre ++ .fail logs msg :: post)) ∧
       (∀ outcomes : List FileOutcome,
          ¬(((runBatch sessionId outcomes).events.any isErrorEvent = true) ∧
            ((runBatch sessionId outcomes).events.any isResultEvent = true)))) := by
  intro sessionId pre logs msg post hpre
  obtain ⟨acc', results', honly, heq⟩ :=
    runBatchAux_ok_prefix sessionId pre hpre (.fail logs msg :: post) [] []
  have hfilterE : ∀ (l : List SessionEvent), onlyLogs l → l.filter isErrorEvent = [] := by
    intro l hl
    refine List.filter_eq_nil_iff.mpr fun ev hev => by simp [(hl ev hev).1]
  have hfilterR : ∀ (l : List SessionEvent), onlyLogs l → l.filter isResultEvent = [] := by
    intro l hl
    refine List.filter_eq_nil_iff.mpr fun ev hev => by simp [(hl ev hev).2]
  have hmaps := onlyLogs_map_log logs
  have hacc' : onlyLogs (([] : List SessionEvent) ++ acc') := by
    simpa using honly
  refine ⟨?_, ?_, ?_, ?_, ?_, fun outcomes => runBatchAux_exclusive sessionId outcomes [] []
    (by intro ev h; simp at h)⟩
  · rw [runBatch, heq, runBatchAux]
    simp only [List.filter_append]
    rw [hfilterE _ honly, hfilterE _ hmaps]
    simp [isErrorEvent]
  · rw [runBatch, heq, runBatchAux]
    simp only [List.filter_append]
    rw [hfilterR _ honly, hfilterR _ hmaps]
    simp [isResultEvent]
  · rw [runBatch, heq, runBatchAux]
  · rw [runBatch, heq, runBatchAux]
  · intro post'
    rw [runBatch, runBatch]
    exact runBatchAux_fail_abort sessionId logs msg pre hpre [] [] post' post

/-- Witness for C4: a 3-file batch whose second file fails publishes
one error event, no result event, and cleans everything up. -/
theorem batch_failure_cleanup_witness :
    ((runBatch "sid" ([.ok ["l1"] dummyFile] ++ .fail ["l2"] "boom" ::
        [.ok ["l3"] dummyFile])).events.filter isErrorEvent).length = 1 ∧
    ((runBatch "sid" ([.ok ["l1"] dummyFile] ++ .fail ["l2"] "boom" ::
        [.ok ["l3"] dummyFile])).events.filter isResultEvent).length = 0 ∧
    (runBatch "sid" ([.ok ["l1"] dummyFile] ++ .fail ["l2"] "boom" ::
        [.ok ["l3"] dummyFile])).sessionDirCleaned = true := by
  have h := batch_failure_cleanup "sid" [.ok ["l1"] dummyFile] ["l2"] "boom"
    [.ok ["l3"] dummyFile] (by intro o ho; simp at ho; rw [ho]; rfl)
  exact ⟨h.1, h.2.1, h.2.2.1⟩

/-! ### Parallel Conversion Orchestrator (claim C6) -/

/-- Chunks are contiguous in ascending page order and well-formed. -/
lemma mkChunksAux_chain (base : String) (ppc t : Nat) (hppc : 1 ≤ ppc) :
    ∀ (wl i : Nat),
      (∀ ch ∈ mkChunksAux base ppc t wl i, ch.start ≤ ch.«end» ∧ ch.«end» ≤ t) ∧
      List.Chain' (fun a b => b.start = a.«end» + 1) (mkChunksAux base ppc t wl i) := by
  intro wl
  induction wl with
  | zero =>
    intro i
    simp [mkChunksAux]
  | succ wl ih =>
    intro i
    by_cases hstart : t < i * ppc + 1
    · simp [mkChunksAux, hstart]
    · have hbound : (∀ ch ∈ mkChunksAux base ppc t wl (i + 1),
          ch.start ≤ ch.«end» ∧ ch.«end» ≤ t) := (ih (i + 1)).1
      have hchain := (ih (i + 1)).2
      have hhead : i * ppc + 1 ≤ min ((i + 1) * ppc) t := by
        refine le_min ?_ (Nat.not_lt.mp hstart)
        have : (i + 1) * ppc = i * ppc + ppc := by ring
        omega
      constructor
      · intro ch hch
        rw [mkChunksAux, if_neg hstart] at hch
        rcases List.mem_cons.mp hch with rfl | hmem
        · exact ⟨hhead, Nat.min_le_right _ _⟩
        · exact hbound ch hmem
      · rw [mkChunksAux, if_neg hstart]
        cases htail : mkChunksAux base ppc t wl (i + 1) with
        | nil => simp
        | cons d ds =>
          have hd : d.start = (i + 1) * ppc + 1 ∧ (i + 1) * ppc + 1 ≤ t := by
            cases wl with
            | zero => simp [mkChunksAux] at htail
            | succ w =>
              by_cases h2 : t < (i + 1) * ppc + 1
              · rw [mkChunksAux, if_pos h2] at htail
                exact absurd htail (by simp)
              · rw [mkChunksAux, if_neg h2] at htail
                have hinj := (List.cons.injEq _ _ _ _).mp htail.symm
                refine ⟨?_, Nat.not_lt.mp h2⟩
                rw [hinj.1]
          refine List.chain'_cons.mpr ⟨?_, htail ▸ hchain⟩
          have hmin : min ((i + 1) * ppc) t = (i + 1) * ppc := by omega
          simp only [hmin]
          omega

/-- At least two chunks are created for documents on the parallel
path. -/
lemma mkChunks_two_le (base : String) (t : Nat) (ht : 16 ≤ t) :
    2 ≤ (mkChunks base t).length := by
  have hppc1 : ¬ t < 0 * ((t + NUM_WORKERS - 1) / NUM_WORKERS) + 1 := by
    simp only [Nat.zero_mul]
    omega
  have hdiv : (t + NUM_WORKERS - 1) / NUM_WORKERS < t := by
    rw [show NUM_WORKERS = 8 from rfl]
    rw [Nat.div_lt_iff_lt_mul (by omega : 0 < 8)]
    omega
  have hppc2 : ¬ t < 1 * ((t + NUM_WORKERS - 1) / NUM_WORKERS) + 1 := by
    simp only [Nat.one_mul]
    omega
  rw [mkChunks, show NUM_WORKERS = 8 from rfl]
  rw [show (8 : Nat) = 7 + 1 from rfl, mkChunksAux,
    if_neg (by simpa using hppc1), show (7 : Nat) = 6 + 1 from rfl, mkChunksAux,
    if_neg (by simpa using hppc2)]
  simp only [List.length_cons]
  omega

/-- Claim C6: on the parallel path (at least
`MIN_PAGES_FOR_PARALLEL` pages) more than one chunk is produced, the
chunks are contiguous in ascending page order, the converted chunks are
merged in that order, and the merged intermediate is re-run through the
conversion step exactly once to give the final output; a singleton
chunk list is instead renamed into place with no merge and no second
conversion. -/
theorem parallel_merge_reconvert :
    ∀ (inputPath outputPath : String) (totalPages : Nat),
      MIN_PAGES_FOR_PARALLEL ≤ totalPages →
      2 ≤ (mkChunks outputPath totalPages).length ∧
      List.Chain' (fun a b => b.start = a.«end» + 1) (mkChunks outputPath totalPages) ∧
      (∀ ch ∈ mkChunks outputPath totalPages, ch.start ≤ ch.«end» ∧
        ch.«end» ≤ totalPages) ∧
      convertToPdfAParallel inputPath outputPath totalPages =
        ((mkChunks outputPath totalPages).map fun c =>
          .qpdfExtract c.start c.«end» c.chunkPath) ++
        ((mkChunks outputPath totalPages).map fun c =>
          .gsConvert c.chunkPath c.convertedPath) ++
        [.qpdfMerge ((mkChunks outputPath totalPages).map fun c => c.convertedPath)
          (outputPath ++ ".merged.pdf"),
         .gsConvert (outputPath ++ ".merged.pdf") outputPath] ∧
      (∀ (cs : List ConversionChunk) (c : ConversionChunk) (out : String),
        cs = [c] → mergeStep cs out = [.rename c.convertedPath out]) := by
  intro inputPath outputPath totalPages ht
  have ht16 : 16 ≤ totalPages := ht
  have hppc : 1 ≤ (totalPages + NUM_WORKERS - 1) / NUM_WORKERS := by
    rw [show NUM_WORKERS = 8 from rfl]
    rw [Nat.le_div_iff_mul_le (by omega : 0 < 8)]
    omega
  have hlen := mkChunks_two_le outputPath totalPages ht16
  have hchain := mkChunksAux_chain outputPath
    ((totalPages + NUM_WORKERS - 1) / NUM_WORKERS) totalPages hppc NUM_WORKERS 0
  obtain ⟨a, b, rest, hch⟩ : ∃ a b rest,
      mkChunks outputPath totalPages = a :: b :: rest := by
    cases h1 : mkChunks outputPath totalPages with
    | nil => rw [h1] at hlen; simp at hlen
    | cons a tl =>
      cases tl with
      | nil => rw [h1] at hlen; simp at hlen
      | cons b rest => exact ⟨a, b, rest, rfl⟩
  refine ⟨hlen, hchain.2, hchain.1, ?_, ?_⟩
  · rw [convertToPdfAParallel, if_neg (Nat.not_lt.mpr ht), hch]
    rfl
  · intro cs c out hcs
    subst hcs
    rfl

/-- Witness for C6: a 100-page document produces more than one chunk
and its action trace ends with a merge followed by one re-conversion. -/
theorem parallel_merge_reconvert_witness :
    2 ≤ (mkChunks "out" 100).length ∧
    convertToPdfAParallel "in" "out" 100 =
      ((mkChunks "out" 100).map fun c => .qpdfExtract c.start c.«end» c.chunkPath) ++
      ((mkChunks "out" 100).map fun c => .gsConvert c.chunkPath c.convertedPath) ++
      [.qpdfMerge ((mkChunks "out" 100).map fun c => c.convertedPath) "out.merged.pdf",
       .gsConvert "out.merged.pdf" "out"] := by
  have h := parallel_merge_reconvert "in" "out" 100 (by decide)
  exact ⟨h.1, h.2.2.2.1⟩

/-! ### Split-result aggregation (claim C10) -/

/-- `partsDetail.reduce((acc, f) => acc + f.size, 0)` sums the part
sizes. -/
lemma foldl_add_sizes (pd : List PartVerification) :
    ∀ acc : Nat, pd.foldl (fun a f => a + f.size) acc = acc + (pd.map fun p => p.size).sum := by
  induction pd with
  | nil => intro acc; simp
  | cons p ps ih => intro acc; simp [ih, Nat.add_assoc]

/-- Claim C10: the aggregate fields of a split result are fully
determined by the per-part details — `outputSize` is the sum of the
part sizes, `parts` the part count, `verified` holds exactly when every
part verified, and `conformance` is the first part's conformance when
all parts verified and null otherwise; and in the pipeline the split
branch produces exactly this aggregation of its generated parts. -/
theorem aggregate_split_fields :
    ∀ (originalName outputBaseName : String) (pd : List PartVerification),
      pd ≠ [] →
      (aggregateSplit originalName outputBaseName pd).outputSize =
        (pd.map fun p => p.size).sum ∧
      (aggregateSplit originalName outputBaseName pd).parts = some pd.length ∧
      ((aggregateSplit originalName outputBaseName pd).verified = true ↔
        ∀ p ∈ pd, p.verified = true) ∧
      (∀ p0 rest, pd = p0 :: rest →
        (aggregateSplit originalName outputBaseName pd).conformance =
          if ∀ p ∈ pd, p.verified = true then p0.conformance else none) ∧
      (aggregateSplit originalName outputBaseName pd).wasSplit = true ∧
      (aggregateSplit originalName outputBaseName pd).partsDetail = some pd ∧
      (∀ (onm obn : String) (convertedSize totalPages est : Nat)
        (probe : Nat → Nat → Nat) (pconv : PageRange → Nat)
        (pc : PageRange → Option String) (fullc : Option String),
        MAX_SIZE_BYTES < convertedSize →
        processOneFile onm obn convertedSize totalPages est probe pconv pc fullc =
          aggregateSplit onm obn (mkPartsDetail obn pconv pc
            (findPageRangesForSize probe MAX_SIZE_BYTES est totalPages))) := by
  intro onm0 obn0 pd hpd
  refine ⟨?_, rfl, ?_, ?_, rfl, rfl, ?_⟩
  · simp [aggregateSplit, foldl_add_sizes]
  · simp [aggregateSplit, List.all_eq_true]
  · intro p0 rest hrest
    subst hrest
    by_cases hv : ∀ p ∈ p0 :: rest, p.verified = true
    · simp [aggregateSplit, List.all_eq_true, hv]
    · simp [aggregateSplit, List.all_eq_true, hv]
  · intro onm obn convertedSize totalPages est probe pconv pc fullc hover
    rw [processOneFile, if_pos hover]

/-- Witness for C10: a one-part detail list aggregates to its own size,
count, flag and conformance. -/
theorem aggregate_split_fields_witness :
    (aggregateSplit "doc" "doc" [⟨"doc_parte1.pdf", 5, true, some "PDF/A-1b"⟩]).outputSize
      = 5 ∧
    (aggregateSplit "doc" "doc" [⟨"doc_parte1.pdf", 5, true, some "PDF/A-1b"⟩]).parts
      = some 1 ∧
    (aggregateSplit "doc" "doc" [⟨"doc_parte1.pdf", 5, true,
      some "PDF/A-1b"⟩]).conformance = some "PDF/A-1b" := by
  have h := aggregate_split_fields "doc" "doc"
    [⟨"doc_parte1.pdf", 5, true, some "PDF/A-1b"⟩] (by simp)
  refine ⟨by rw [h.1]; decide, h.2.1, ?_⟩
  rw [h.2.2.2.1 _ [] rfl, if_pos (by decide)]

/-! ### Size-Fitting Partitioner: loop lemmas -/

/-- The grow phase never decreases the candidate end. -/
lemma growLoop_ge (probe : Nat → Nat → Nat) (maxSize currentPage totalPages : Nat) :
    ∀ (pl ce : Nat), ce ≤ growLoop probe maxSize currentPage totalPages pl ce := by
  intro pl
  induction pl with
  | zero => intro ce; rw [growLoop]
  | succ pl ih =>
    intro ce
    rw [growLoop]
    by_cases h1 : ce + 1 ≤ totalPages
    · rw [if_pos h1]
      by_cases h2 : probe currentPage (ce + 1) ≤ maxSize
      · rw [if_pos h2]
        exact le_trans (by omega) (ih (ce + 1))
      · rw [if_neg h2]
    · rw [if_neg h1]

/-- The grow phase never passes the last page. -/
lemma growLoop_le (probe : Nat → Nat → Nat) (maxSize currentPage totalPages : Nat) :
    ∀ (pl ce : Nat), ce ≤ totalPages →
      growLoop probe maxSize currentPage totalPages pl ce ≤ totalPages := by
  intro pl
  induction pl with
  | zero => intro ce h; rw [growLoop]; exact h
  | succ pl ih =>
    intro ce h
    rw [growLoop]
    by_cases h1 : ce + 1 ≤ totalPages
    · rw [if_pos h1]
      by_cases h2 : probe currentPage (ce + 1) ≤ maxSize
      · rw [if_pos h2]
        exact ih (ce + 1) h1
      · rw [if_neg h2]; exact h
    · rw [if_neg h1]; exact h

/-- The grow phase preserves a fitting probe. -/
lemma growLoop_fit (probe : Nat → Nat → Nat) (maxSize currentPage totalPages : Nat) :
    ∀ (pl ce : Nat), probe currentPage ce ≤ maxSize →
      probe currentPage (growLoop probe maxSize currentPage totalPages pl ce) ≤ maxSize := by
  intro pl
  induction pl with
  | zero => intro ce h; rw [growLoop]; exact h
  | succ pl ih =>
    intro ce h
    rw [growLoop]
    by_cases h1 : ce + 1 ≤ totalPages
    · rw [if_pos h1]
      by_cases h2 : probe currentPage (ce + 1) ≤ maxSize
      · rw [if_pos h2]
        exact ih (ce + 1) h2
      · rw [if_neg h2]; exact h
    · rw [if_neg h1]; exact h

/-- Every page end the grow phase stepped through fits. -/
lemma growLoop_window (probe : Nat → Nat → Nat) (maxSize currentPage totalPages : Nat) :
    ∀ (pl ce j : Nat), ce < j →
      j ≤ growLoop probe maxSize currentPage totalPages pl ce →
      probe currentPage j ≤ maxSize := by
  intro pl
  induction pl with
  | zero =>
    intro ce j hlt hle
    rw [growLoop] at hle
    omega
  | succ pl ih =>
    intro ce j hlt hle
    rw [growLoop] at hle
    by_cases h1 : ce + 1 ≤ totalPages
    · rw [if_pos h1] at hle
      by_cases h2 : probe currentPage (ce + 1) ≤ maxSize
      · rw [if_pos h2] at hle
        rcases Nat.lt_or_ge (ce + 1) j with hj | hj
        · exact ih (ce + 1) j hj hle
        · have : j = ce + 1 := by omega
          subst this
          exact h2
      · rw [if_neg h2] at hle
        omega
    · rw [if_neg h1] at hle
      omega

/-- The grow phase stops only at the last page, at a non-fitting next
probe, or after exhausting its probe budget. -/
lemma growLoop_stop (probe : Nat → Nat → Nat) (maxSize currentPage totalPages : Nat) :
    ∀ (pl ce : Nat),
      totalPages ≤ growLoop probe maxSize currentPage totalPages pl ce ∨
      maxSize < probe currentPage
        (growLoop probe maxSize currentPage totalPages pl ce + 1) ∨
      pl ≤ growLoop probe maxSize currentPage totalPages pl ce - ce := by
  intro pl
  induction pl with
  | zero => intro ce; right; right; rw [growLoop]; omega
  | succ pl ih =>
    intro ce
    rw [growLoop]
    by_cases h1 : ce + 1 ≤ totalPages
    · rw [if_pos h1]
      by_cases h2 : probe currentPage (ce + 1) ≤ maxSize
      · rw [if_pos h2]
        rcases ih (ce + 1) with h | h | h
        · exact Or.inl h
        · exact Or.inr (Or.inl h)
        · right; right
          have := growLoop_ge probe maxSize currentPage totalPages pl (ce + 1)
          omega
      · rw [if_neg h2]
        exact Or.inr (Or.inl (Nat.lt_of_not_le h2))
    · rw [if_neg h1]
      exact Or.inl (by omega)

/-- The shrink phase never increases the candidate end. -/
lemma shrinkLoop_le (probe : Nat → Nat → Nat) (maxSize currentPage : Nat) :
    ∀ ce : Nat, shrinkLoop probe maxSize currentPage ce ≤ ce := by
  intro ce
  induction ce with
  | zero => rw [shrinkLoop]
  | succ ce ih =>
    rw [shrinkLoop]
    by_cases h1 : currentPage < ce + 1
    · rw [if_pos h1]
      by_cases h2 : probe currentPage ce ≤ maxSize
      · rw [if_pos h2]; omega
      · rw [if_neg h2]; omega
    · rw [if_neg h1]

/-- The shrink phase never passes the current page. -/
lemma shrinkLoop_ge (probe : Nat → Nat → Nat) (maxSize currentPage : Nat) :
    ∀ ce : Nat, currentPage ≤ ce →
      currentPage ≤ shrinkLoop probe maxSize currentPage ce := by
  intro ce
  induction ce with
  | zero => intro h; rw [shrinkLoop]; exact h
  | succ ce ih =>
    intro h
    rw [shrinkLoop]
    by_cases h1 : currentPage < ce + 1
    · rw [if_pos h1]
      by_cases h2 : probe currentPage ce ≤ maxSize
      · rw [if_pos h2]; omega
      · rw [if_neg h2]; exact ih (by omega)
    · rw [if_neg h1]; exact h

/-- The shrink phase ends at a fitting probe or degrades to the single
current page. -/
lemma shrinkLoop_fit_or_single (probe : Nat → Nat → Nat) (maxSize currentPage : Nat) :
    ∀ ce : Nat, currentPage ≤ ce →
      probe currentPage (shrinkLoop probe maxSize currentPage ce) ≤ maxSize ∨
      shrinkLoop probe maxSize currentPage ce = currentPage := by
  intro ce
  induction ce with
  | zero => intro h; right; rw [shrinkLoop]; omega
  | succ ce ih =>
    intro h
    rw [shrinkLoop]
    by_cases h1 : currentPage < ce + 1
    · rw [if_pos h1]
      by_cases h2 : probe currentPage ce ≤ maxSize
      · rw [if_pos h2]; exact Or.inl h2
      · rw [if_neg h2]; exact ih (by omega)
    · rw [if_neg h1]; right; omega

/-- The shrink phase keeps the first fitting end from above: every
strictly larger end below the starting candidate fails to fit. -/
lemma shrinkLoop_first_fit (probe : Nat → Nat → Nat) (maxSize currentPage : Nat) :
    ∀ (ce j : Nat), shrinkLoop probe maxSize currentPage ce < j → j < ce →
      maxSize < probe currentPage j := by
  intro ce
  induction ce with
  | zero => intro j _ hj; omega
  | succ ce ih =>
    intro j hlt hj
    rw [shrinkLoop] at hlt
    by_cases h1 : currentPage < ce + 1
    · rw [if_pos h1] at hlt
      by_cases h2 : probe currentPage ce ≤ maxSize
      · rw [if_pos h2] at hlt
        omega
      · rw [if_neg h2] at hlt
        rcases Nat.lt_or_ge j ce with hj' | hj'
        · exact ih j hlt hj'
        · have : j = ce := by omega
          subst this
          exact Nat.lt_of_not_le h2
    · rw [if_neg h1] at hlt
      omega

/-- The chosen end of one normal-flow iteration lies between the
current page and the last page, and its probe fits unless it degraded
to the single current page. -/
lemma chooseEnd_spec (probe : Nat → Nat → Nat) (maxSize est totalPages currentPage : Nat)
    (hest : 1 ≤ est) (h2 : currentPage ≤ totalPages) :
    currentPage ≤ chooseEnd probe maxSize est totalPages currentPage ∧
    chooseEnd probe maxSize est totalPages currentPage ≤ totalPages ∧
    (probe currentPage (chooseEnd probe maxSize est totalPages currentPage) ≤ maxSize ∨
      chooseEnd probe maxSize est totalPages currentPage = currentPage) := by
  have hce0 : currentPage ≤ min (currentPage + est - 1) totalPages :=
    Nat.le_min.mpr ⟨by omega, h2⟩
  rw [chooseEnd]
  by_cases hfit : probe currentPage (min (currentPage + est - 1) totalPages) ≤ maxSize
  · rw [if_pos hfit]
    exact ⟨le_trans hce0 (growLoop_ge _ _ _ _ _ _),
      growLoop_le _ _ _ _ _ _ (Nat.min_le_right _ _),
      Or.inl (growLoop_fit _ _ _ _ _ _ hfit)⟩
  · rw [if_neg hfit]
    exact ⟨shrinkLoop_ge _ _ _ _ hce0,
      le_trans (shrinkLoop_le _ _ _ _) (Nat.min_le_right _ _),
      shrinkLoop_fit_or_single _ _ _ _ hce0⟩

/-- Appending adjacent page intervals. -/
lemma range'_append_one (s m n : Nat) :
    List.range' s m ++ List.range' (s + m) n = List.range' s (m + n) := by
  simp [Nat.add_comm]

/-- `spansOf` on an empty list. -/
lemma spansOf_nil : spansOf [] = [] := rfl

/-- `spansOf` on a cons. -/
lemma spansOf_cons (r : PageRange) (rs : List PageRange) :
    spansOf (r :: rs) = List.range' r.start (r.«end» + 1 - r.start) ++ spansOf rs := by
  simp [spansOf]

/-- Past the last page the loop emits nothing. -/
lemma rangesLoop_nil (probe : Nat → Nat → Nat) (maxSize est totalPages : Nat) :
    ∀ (fuel currentPage : Nat), totalPages < currentPage →
      rangesLoop probe maxSize est totalPages fuel currentPage = [] := by
  intro fuel currentPage h
  cases fuel with
  | zero => rw [rangesLoop]
  | succ f => rw [rangesLoop, if_neg (Nat.not_le.mpr h)]

/-- Master invariant of the probe loop: started at any page within the
document (with enough fuel), the emitted ranges are non-empty, begin at
the start page, are well-formed and chained contiguously, end at the
last page, cover exactly the remaining pages once, and each emitted
range either has a fitting probe or is a single page. -/
lemma rangesLoop_spec (probe : Nat → Nat → Nat) (maxSize est totalPages : Nat)
    (hest : 1 ≤ est) :
    ∀ (fuel currentPage : Nat), 1 ≤ currentPage → currentPage ≤ totalPages →
      totalPages + 1 ≤ fuel + currentPage →
      (∃ r rest, rangesLoop probe maxSize est totalPages fuel currentPage = r :: rest ∧
        r.start = currentPage) ∧
      (∀ r ∈ rangesLoop probe maxSize est totalPages fuel currentPage,
        currentPage ≤ r.start ∧ r.start ≤ r.«end» ∧ r.«end» ≤ totalPages) ∧
      List.Chain' (fun a b => b.start = a.«end» + 1)
        (rangesLoop probe maxSize est totalPages fuel currentPage) ∧
      (∀ r, (rangesLoop probe maxSize est totalPages fuel currentPage).getLast? = some r →
        r.«end» = totalPages) ∧
      spansOf (rangesLoop probe maxSize est totalPages fuel currentPage) =
        List.range' currentPage (totalPages + 1 - currentPage) ∧
      (∀ r ∈ rangesLoop probe maxSize est totalPages fuel currentPage,
        probe r.start r.«end» ≤ maxSize ∨ r.start = r.«end») := by
  intro fuel
  induction fuel with
  | zero => intro cp h1 h2 h3; omega
  | succ fuel ih =>
    intro cp h1 h2 h3
    by_cases hcond : totalPages ≤ cp + est - 1 ∧ probe cp totalPages ≤ maxSize
    · rw [rangesLoop, if_pos h2, if_pos hcond]
      refine ⟨⟨⟨cp, totalPages⟩, [], rfl, rfl⟩, ?_, ?_, ?_, ?_, ?_⟩
      · intro r hr
        rw [List.mem_singleton] at hr
        subst hr
        exact ⟨le_refl _, h2, le_refl _⟩
      · simp
      · intro r hr
        have : r = ⟨cp, totalPages⟩ := by simpa using hr.symm
        subst this
        rfl
      · rw [spansOf_cons, spansOf_nil, List.append_nil]
      · intro r hr
        rw [List.mem_singleton] at hr
        subst hr
        exact Or.inl hcond.2
    · rw [rangesLoop, if_pos h2, if_neg hcond]
      obtain ⟨hge, hle, hfit⟩ := chooseEnd_spec probe maxSize est totalPages cp hest h2
      set E := chooseEnd probe maxSize est totalPages cp with hE
      by_cases hEt : E = totalPages
      · have htail : rangesLoop probe maxSize est totalPages fuel (E + 1) = [] :=
          rangesLoop_nil _ _ _ _ _ _ (by omega)
        rw [htail]
        refine ⟨⟨⟨cp, E⟩, [], rfl, rfl⟩, ?_, ?_, ?_, ?_, ?_⟩
        · intro r hr
          rw [List.mem_singleton] at hr
          subst hr
          exact ⟨le_refl _, hge, hle⟩
        · simp
        · intro r hr
          have : r = ⟨cp, E⟩ := by simpa using hr.symm
          subst this
          exact hEt
        · rw [spansOf_cons, spansOf_nil, List.append_nil, hEt]
        · intro r hr
          rw [List.mem_singleton] at hr
          subst hr
          rcases hfit with h | h
          · exact Or.inl h
          · exact Or.inr h.symm
      · have hElt : E < totalPages := lt_of_le_of_ne hle hEt
        obtain ⟨⟨r', rest', hcons, hstart'⟩, hbounds, hchain, hlast, hspans, hprobe⟩ :=
          ih (E + 1) (by omega) (by omega) (by omega)
        refine ⟨⟨⟨cp, E⟩, _, rfl, rfl⟩, ?_, ?_, ?_, ?_, ?_⟩
        · intro r hr
          rcases List.mem_cons.mp hr with rfl | hmem
          · exact ⟨le_refl _, hge, hle⟩
          · obtain ⟨ha, hb, hc⟩ := hbounds r hmem
            exact ⟨by omega, hb, hc⟩
        · rw [hcons]
          refine List.chain'_cons.mpr ⟨?_, hcons ▸ hchain⟩
          rw [hstart']
        · intro r hr
          rw [hcons, List.getLast?_cons_cons] at hr
          exact hlast r (by rw [hcons]; exact hr)
        · rw [spansOf_cons, hspans]
          have hm : cp + (E + 1 - cp) = E + 1 := by omega
          have happ := range'_append_one cp (E + 1 - cp) (totalPages - E)
          rw [hm] at happ
          rw [show totalPages + 1 - (E + 1) = totalPages - E from by omega, happ]
          congr 1
          omega
        · intro r hr
          rcases List.mem_cons.mp hr with rfl | hmem
          · rcases hfit with h | h
            · exact Or.inl h
            · exact Or.inr h.symm
          · exact hprobe r hmem

/-! ### Partitioner range structure (claim C2) -/

/-- Claim C2: for every document with at least one page the returned
ranges are non-empty, start at page 1, end at the last page, are
well-formed (`start ≤ end ≤ totalPages`), contiguous in ascending
order, and their concatenated page spans reconstruct `1..totalPages`
exactly once. -/
theorem partition_ranges_exact :
    ∀ (probe : Nat → Nat → Nat) (maxSize est totalPages : Nat),
      1 ≤ est → 1 ≤ totalPages →
      findPageRangesForSize probe maxSize est totalPages ≠ [] ∧
      (∀ r, (findPageRangesForSize probe maxSize est totalPages).head? = some r →
        r.start = 1) ∧
      (∀ r, (findPageRangesForSize probe maxSize est totalPages).getLast? = some r →
        r.«end» = totalPages) ∧
      (∀ r ∈ findPageRangesForSize probe maxSize est totalPages,
        1 ≤ r.start ∧ r.start ≤ r.«end» ∧ r.«end» ≤ totalPages) ∧
      List.Chain' (fun a b => b.start = a.«end» + 1)
        (findPageRangesForSize probe maxSize est totalPages) ∧
      spansOf (findPageRangesForSize probe maxSize est totalPages) =
        List.range' 1 totalPages := by
  intro probe maxSize est totalPages hest htot
  by_cases hsmall : totalPages ≤ 1
  · have h1 : totalPages = 1 := by omega
    subst h1
    rw [findPageRangesForSize, if_pos (le_refl 1)]
    refine ⟨by simp, ?_, ?_, ?_, ?_, ?_⟩
    · intro r hr
      have : r = ⟨1, 1⟩ := by simpa using hr.symm
      subst this
      rfl
    · intro r hr
      have : r = ⟨1, 1⟩ := by simpa using hr.symm
      subst this
      rfl
    · intro r hr
      rw [List.mem_singleton] at hr
      subst hr
      exact ⟨le_refl 1, le_refl 1, le_refl 1⟩
    · simp
    · rw [spansOf_cons, spansOf_nil, List.append_nil]
      decide
  · rw [findPageRangesForSize, if_neg hsmall]
    obtain ⟨⟨r0, rest0, hcons, hstart⟩, hbounds, hchain, hlast, hspans, _⟩ :=
      rangesLoop_spec probe maxSize est totalPages hest (totalPages + 1) 1
        (le_refl 1) (by omega) (by omega)
    refine ⟨by rw [hcons]; simp, ?_, fun r hr => hlast r hr, hbounds, hchain, ?_⟩
    · intro r hr
      rw [hcons, List.head?_cons] at hr
      rw [← Option.some.inj hr]
      exact hstart
    · rw [hspans]
      congr 1

/-- Witness for C2: a 9-page document partitioned with ceiling 10 and
estimate 4 yields ranges spanning exactly pages 1..9. -/
theorem partition_ranges_exact_witness :
    findPageRangesForSize probeW 10 4 9 ≠ [] ∧
    spansOf (findPageRangesForSize probeW 10 4 9) = List.range' 1 9 := by
  have h := partition_ranges_exact probeW 10 4 9 (by decide) (by decide)
  exact ⟨h.1, h.2.2.2.2.2⟩

/-! ### Zero-page documents (claim C9) -/

/-- Counterexample for C9: on a zero-page document the partitioner does
not raise any error — it returns the non-empty range list
`[{start: 1, end: 1}]`. -/
theorem partition_zero_pages_counterexample :
    findPageRangesForSize (fun _ _ => 0) MAX_SIZE_BYTES 1 0 = [⟨1, 1⟩] ∧
    findPageRangesForSize (fun _ _ => 0) MAX_SIZE_BYTES 1 0 ≠ [] := by
  decide

/-- Amended C9: the `totalPages <= 1` guard does not distinguish
zero-page input: the partitioner returns `[{start: 1, end: 1}]` exactly
as for a one-page document, without consulting the engine, so any
invalid-input failure can only surface later at the extraction stage. -/
theorem partition_zero_pages_like_one :
    ∀ (probe : Nat → Nat → Nat) (maxSize est : Nat),
      findPageRangesForSize probe maxSize est 0 = [⟨1, 1⟩] ∧
      findPageRangesForSize probe maxSize est 0 =
        findPageRangesForSize probe maxSize est 1 := by
  intro probe maxSize est
  refine ⟨?_, ?_⟩
  · rw [findPageRangesForSize, if_pos (by omega : (0 : Nat) ≤ 1)]
  · rw [findPageRangesForSize, if_pos (by omega : (0 : Nat) ≤ 1),
      findPageRangesForSize, if_pos (le_refl 1)]

/-! ### Probe strategy (claim C5) -/

/-- Counterexample for C5: ceiling 12, estimate 1, 13 pages, probe size
equal to the page count of the range.  The remainder `[1,13]` does not
fit (13 > 12) and the maximal fitting end from page 1 is 12 (`[1,12]`
has size 12 ≤ 12 with 12 ≤ totalPages−1), yet the partitioner emits
`[1,11]`: the grow phase stops after its 10-probe budget, so the chosen
end is not maximal and no binary search is performed. -/
theorem partition_not_maximal_counterexample :
    findPageRangesForSize probeLin 12 1 13 = [⟨1, 11⟩, ⟨12, 13⟩] ∧
    12 < probeLin 1 13 ∧
    probeLin 1 12 ≤ 12 ∧ (12 : Nat) ≤ 13 - 1 ∧ (11 : Nat) < 12 := by
  decide

/-- Amended C5: one loop iteration emits the full remainder as the
final range only when the estimated window reaches the last page and
the remainder's probe fits; otherwise the emitted end is the
estimate-based candidate grown one page at a time while each extension
fits (stopping at the last page, at the first non-fitting extension, or
after at most 10 growth probes), or shrunk one page at a time to the
first fitting end below the candidate (degrading to the single current
page when none fits). -/
theorem partition_probe_strategy :
    ∀ (probe : Nat → Nat → Nat) (maxSize est totalPages fuel currentPage : Nat),
      1 ≤ est → 1 ≤ currentPage → currentPage ≤ totalPages →
      totalPages + 1 ≤ fuel + currentPage →
      ((totalPages ≤ currentPage + est - 1 ∧ probe currentPage totalPages ≤ maxSize) →
        rangesLoop probe maxSize est totalPages fuel currentPage =
          [⟨currentPage, totalPages⟩]) ∧
      (¬(totalPages ≤ currentPage + est - 1 ∧ probe currentPage totalPages ≤ maxSize) →
        (∃ rest, rangesLoop probe maxSize est totalPages fuel currentPage =
          ⟨currentPage, chooseEnd probe maxSize est totalPages currentPage⟩ :: rest) ∧
        (probe currentPage (min (currentPage + est - 1) totalPages) ≤ maxSize →
          chooseEnd probe maxSize est totalPages currentPage =
            growLoop probe maxSize currentPage totalPages 10
              (min (currentPage + est - 1) totalPages) ∧
          min (currentPage + est - 1) totalPages ≤
            chooseEnd probe maxSize est totalPages currentPage ∧
          probe currentPage (chooseEnd probe maxSize est totalPages currentPage) ≤
            maxSize ∧
          (∀ j, min (currentPage + est - 1) totalPages < j →
            j ≤ chooseEnd probe maxSize est totalPages currentPage →
            probe currentPage j ≤ maxSize) ∧
          (totalPages ≤ chooseEnd probe maxSize est totalPages currentPage ∨
            maxSize < probe currentPage
              (chooseEnd probe maxSize est totalPages currentPage + 1) ∨
            10 ≤ chooseEnd probe maxSize est totalPages currentPage -
              min (currentPage + est - 1) totalPages)) ∧
        (maxSize < probe currentPage (min (currentPage + est - 1) totalPages) →
          chooseEnd probe maxSize est totalPages currentPage =
            shrinkLoop probe maxSize currentPage
              (min (currentPage + est - 1) totalPages) ∧
          currentPage ≤ chooseEnd probe maxSize est totalPages currentPage ∧
          chooseEnd probe maxSize est totalPages currentPage ≤
            min (currentPage + est - 1) totalPages ∧
          (probe currentPage (chooseEnd probe maxSize est totalPages currentPage) ≤
            maxSize ∨
            chooseEnd probe maxSize est totalPages currentPage = currentPage) ∧
          (∀ j, chooseEnd probe maxSize est totalPages currentPage < j →
            j < min (currentPage + est - 1) totalPages →
            maxSize < probe currentPage j))) := by
  intro probe maxSize est totalPages fuel currentPage hest h1 h2 h3
  cases fuel with
  | zero => omega
  | succ fuel =>
    constructor
    · intro hcond
      rw [rangesLoop, if_pos h2, if_pos hcond]
    · intro hcond
      rw [rangesLoop, if_pos h2, if_neg hcond]
      refine ⟨⟨_, rfl⟩, ?_, ?_⟩
      · intro hfitc
        rw [chooseEnd, if_pos hfitc]
        exact ⟨rfl, growLoop_ge _ _ _ _ _ _, growLoop_fit _ _ _ _ _ _ hfitc,
          fun j hj hj' => growLoop_window _ _ _ _ _ _ j hj hj',
          growLoop_stop _ _ _ _ _ _⟩
      · intro hfitc
        rw [chooseEnd, if_neg (Nat.not_le.mpr hfitc)]
        have hce0 : currentPage ≤ min (currentPage + est - 1) totalPages :=
          Nat.le_min.mpr ⟨by omega, h2⟩
        exact ⟨rfl, shrinkLoop_ge _ _ _ _ hce0, shrinkLoop_le _ _ _ _,
          shrinkLoop_fit_or_single _ _ _ _ hce0,
          fun j hj hj' => shrinkLoop_first_fit _ _ _ _ j hj hj'⟩

/-- Witness for C5 (amended): with ceiling 12, estimate 1 and 13 pages
the first iteration takes the grow branch and its chosen end is the
grow-phase result with a fitting probe. -/
theorem partition_probe_strategy_witness :
    chooseEnd probeLin 12 1 13 1 =
      growLoop probeLin 12 1 13 10 (min (1 + 1 - 1) 13) ∧
    probeLin 1 (chooseEnd probeLin 12 1 13 1) ≤ 12 := by
  have h := partition_probe_strategy probeLin 12 1 13 14 1 (by decide) (by decide)
    (by decide) (by decide)
  have h2 := h.2 (by decide)
  have h3 := h2.2.1 (by decide)
  exact ⟨h3.1, h3.2.2.1⟩

/-! ### Output size policy (claim C1) -/

/-- Counterexample for C1: with ceiling `MAX_SIZE_BYTES`, a 3-page
converted document and realistic estimate 2, the partitioner emits the
two-page range `[1,2]` (its probe on the converted document fits), but
re-converting pages 1–2 of the original upload produces a part of
12000000 bytes — over the ceiling on a part that is not a single page,
refuting the claim that only single-page parts can exceed the
ceiling. -/
theorem split_part_exceeds_ceiling :
    findPageRangesForSize probeC1 MAX_SIZE_BYTES 2 3 = [⟨1, 2⟩, ⟨3, 3⟩] ∧
    (mkPartsDetail "doc" pconvC1 (fun _ => none)
      (findPageRangesForSize probeC1 MAX_SIZE_BYTES 2 3)).map (fun p => p.size) =
      [12000000, 100] ∧
    MAX_SIZE_BYTES < 12000000 := by
  decide

/-- Amended C1: non-split outputs respect the ceiling by the branch
guard; on the split path one part is produced per range (none dropped),
a part receives the explicit over-ceiling warning exactly when its
final re-converted size exceeds the ceiling (single- or multi-page
alike), and the ≤-ceiling guarantee holds at probe level: every chosen
range either has a fitting probe on the converted document or is a
single page. -/
theorem pipeline_size_policy :
    ∀ (originalName outputBaseName : String) (convertedSize totalPages est : Nat)
      (probe : Nat → Nat → Nat) (pconv : PageRange → Nat)
      (partContent : PageRange → Option String) (fullContent : Option String),
      1 ≤ est →
      (convertedSize ≤ MAX_SIZE_BYTES →
        (processOneFile originalName outputBaseName convertedSize totalPages est probe
          pconv partContent fullContent).wasSplit = false ∧
        (processOneFile originalName outputBaseName convertedSize totalPages est probe
          pconv partContent fullContent).outputSize ≤ MAX_SIZE_BYTES) ∧
      (MAX_SIZE_BYTES < convertedSize →
        (processOneFile originalName outputBaseName convertedSize totalPages est probe
          pconv partContent fullContent).partsDetail =
          some (mkPartsDetail outputBaseName pconv partContent
            (findPageRangesForSize probe MAX_SIZE_BYTES est totalPages)) ∧
        (mkPartsDetail outputBaseName pconv partContent
          (findPageRangesForSize probe MAX_SIZE_BYTES est totalPages)).length =
          (findPageRangesForSize probe MAX_SIZE_BYTES est totalPages).length ∧
        (∀ p ∈ mkPartsDetail outputBaseName pconv partContent
            (findPageRangesForSize probe MAX_SIZE_BYTES est totalPages),
          partLogKind MAX_SIZE_BYTES p = .oversizeWarning ↔ MAX_SIZE_BYTES < p.size) ∧
        (∀ r ∈ findPageRangesForSize probe MAX_SIZE_BYTES est totalPages,
          probe r.start r.«end» ≤ MAX_SIZE_BYTES ∨ r.start = r.«end»)) := by
  intro originalName outputBaseName convertedSize totalPages est probe pconv
    partContent fullContent hest
  constructor
  · intro hsmall
    rw [processOneFile, if_neg (Nat.not_lt.mpr hsmall)]
    exact ⟨rfl, hsmall⟩
  · intro hover
    rw [processOneFile, if_pos hover]
    refine ⟨rfl, by simp [mkPartsDetail], ?_, ?_⟩
    · intro p _
      rw [partLogKind]
      by_cases hp : MAX_SIZE_BYTES < p.size
      · rw [if_pos hp]
        simp [hp]
      · rw [if_neg hp]
        simp [hp]
    · intro r hr
      by_cases hsmall : totalPages ≤ 1
      · rw [findPageRangesForSize, if_pos hsmall, List.mem_singleton] at hr
        subst hr
        exact Or.inr rfl
      · rw [findPageRangesForSize, if_neg hsmall] at hr
        exact (rangesLoop_spec probe MAX_SIZE_BYTES est totalPages hest
          (totalPages + 1) 1 (le_refl 1) (by omega) (by omega)).2.2.2.2.2 r hr

/-- Witness for C1 (amended): a 100-byte converted file is not split
and respects the ceiling; a 10000000-byte converted 3-page file is
split and its parts are exactly the per-range details. -/
theorem pipeline_size_policy_witness :
    (processOneFile "a" "a" 100 5 1 probeW pconvC1 (fun _ => none) none).wasSplit
      = false ∧
    (processOneFile "a" "a" 100 5 1 probeW pconvC1 (fun _ => none) none).outputSize
      ≤ MAX_SIZE_BYTES ∧
    (processOneFile "doc" "doc" 10000000 3 2 probeC1 pconvC1 (fun _ => none)
      none).partsDetail =
      some (mkPartsDetail "doc" pconvC1 (fun _ => none)
        (findPageRangesForSize probeC1 MAX_SIZE_BYTES 2 3)) := by
  have h1 := pipeline_size_policy "a" "a" 100 5 1 probeW pconvC1 (fun _ => none) none
    (by decide)
  have h2 := pipeline_size_policy "doc" "doc" 10000000 3 2 probeC1 pconvC1
    (fun _ => none) none (by decide)
  exact ⟨(h1.1 (by decide)).1, (h1.1 (by decide)).2, (h2.2 (by decide)).1⟩

end PdfaConverter
